import Mathlib

/-
Verification of the side-graph reference engine (ga4gh/sidegraph.py).

The embedding models the Sqlite-backed topology as an in-memory `DB`:
`DB.refs` is the reference catalog (the rows backing `getRefNames` /
`getReference`) and `DB.joins` is the resolved `GraphJoin` relation, each row
already joined to the two reference names, exactly the sextuples the source's
`getJoins` returns.  `getJoins` mirrors the SQL `WHERE` construction of the
source, including the fact that the filter is only added when the requested
reference name is present in the catalog.  `visit` is the inner recursive
`_getSubgraph`; the Python recursion terminates because every recursive call
strictly decreases the integer radius, which the embedding realizes with a
`fuel : Nat` argument initialized to `radius.toNat` (fuel never runs out
before the radius gate fires; this is proved below as fuel-irrelevance).
-/

set_option linter.unusedVariables false

/-- Strand of a join endpoint: `F` (forward) or `R` (reverse), as produced by
the `CASE ... WHEN 'TRUE' THEN 'F' ELSE 'R'` projection in `getJoins`. -/
inductive Strand where
  | F
  | R
deriving DecidableEq, Repr

/-- A reference-catalog record, the fields of the dictionary built by
`getReference` that `_getSubgraph` reads (`start`, `length`), plus the name. -/
structure RefRec where
  name : String
  start : Int
  length : Int
deriving DecidableEq, Repr

/-- A join row `(seq1Name, seq1Pos, seq1Strand, seq2Name, seq2Pos, seq2Strand)`. -/
structure Join where
  lref : String
  lpos : Int
  lstr : Strand
  rref : String
  rpos : Int
  rstr : Strand
deriving DecidableEq, Repr

/-- A segment triple `(name, start, length)` as accumulated by `_getSubgraph`. -/
structure Seg where
  name : String
  start : Int
  length : Int
deriving DecidableEq, Repr

/-- The side graph database: reference catalog plus resolved join relation. -/
structure DB where
  refs : List RefRec
  joins : List Join
deriving DecidableEq, Repr

/-- `SideGraph.getRefNames`. -/
def getRefNames (db : DB) : List String :=
  db.refs.map (fun r => r.name)

/-- `SideGraph.getReference`: `None` when the name is absent, else the record. -/
def getReference (db : DB) (name : String) : Option RefRec :=
  db.refs.find? (fun r => r.name == name)

/-- `SideGraph.getJoins`.  The position filter is appended to the SQL only when
`refName` is given AND present in the catalog; `end` participates only when it
is an `int` (modelled by `Option Int`); otherwise only `start` constrains.  In
all other cases every join row is returned. -/
def getJoins (db : DB) (refName : Option String) (start : Int) (stop : Option Int) : List Join :=
  match refName with
  | some n =>
    if (getRefNames db).contains n then
      match stop with
      | some e => db.joins.filter (fun j =>
          (j.lref == n && decide (start ≤ j.lpos) && decide (j.lpos ≤ e)) ||
          (j.rref == n && decide (start ≤ j.rpos) && decide (j.rpos ≤ e)))
      | none => db.joins.filter (fun j =>
          (j.lref == n && decide (start ≤ j.lpos)) ||
          (j.rref == n && decide (start ≤ j.rpos)))
    else db.joins
  | none => db.joins

/-- The containment test of `_getSubgraph`'s merge loop:
`iStart <= segStart and iEnd >= segEnd` for a same-reference segment. -/
def segContains (refName : String) (segStart segEnd : Int) (s : Seg) : Bool :=
  s.name == refName && decide (s.start ≤ segStart) && decide (segEnd ≤ s.start + s.length)

/-- The intersection test of `_getSubgraph`'s merge loop:
`segStart <= iStart <= segEnd or segStart <= iEnd <= segEnd`. -/
def segIntersects (refName : String) (segStart segEnd : Int) (s : Seg) : Bool :=
  s.name == refName &&
    ((decide (segStart ≤ s.start) && decide (s.start ≤ segEnd)) ||
     (decide (segStart ≤ s.start + s.length) && decide (s.start + s.length ≤ segEnd)))

/-- The merge action of `_getSubgraph` when no accumulated segment contains the
candidate: delete every intersecting same-reference segment and append the
single union segment. -/
def mergeSegs (refName : String) (segStart segEnd : Int) (segments : List Seg) : List Seg :=
  let inter := segments.filter (segIntersects refName segStart segEnd)
  let kept := segments.filter (fun s => !(segIntersects refName segStart segEnd s))
  let unionStart := inter.foldl (fun a s => min a s.start) segStart
  let unionEnd := inter.foldl (fun a s => max a (s.start + s.length)) segEnd
  kept ++ [⟨refName, unionStart, unionEnd - unionStart⟩]

/-- The per-join body of `_getSubgraph`'s `for foundJoin in foundJoins` loop.
`recur` is the recursive call; the two `if` chains handle the side-1 endpoint
and the side-2 endpoint of the join, in that order (a self-join with both
endpoints on the current reference runs both chains). -/
def stepJoin (recur : String → Int → Int → List Seg × List Join → Option Join → List Seg × List Join)
    (refName : String) (pos rad segStart segEnd : Int)
    (st : List Seg × List Join) (j : Join) : List Seg × List Join :=
  let st1 :=
    if j.lref == refName && j.lstr == Strand.R && decide (pos ≤ j.lpos) && decide (j.lpos ≤ segEnd) then
      recur j.rref j.rpos (rad - j.lpos + pos - 1) st (some j)
    else if j.lref == refName && j.lstr == Strand.F && decide (segStart ≤ j.lpos) && decide (j.lpos ≤ pos) then
      recur j.rref j.rpos (rad - pos + j.lpos - 1) st (some j)
    else st
  if j.rref == refName && j.rstr == Strand.R && decide (pos ≤ j.rpos) && decide (j.rpos ≤ segEnd) then
    recur j.lref j.lpos (rad - j.rpos + pos - 1) st1 (some j)
  else if j.rref == refName && j.rstr == Strand.F && decide (segStart ≤ j.rpos) && decide (j.rpos ≤ pos) then
    recur j.lref j.lpos (rad - pos + j.rpos - 1) st1 (some j)
  else st1

/-- The recursive `_getSubgraph`.  The source recursion is on the shrinking
radius; `fuel` is a structural bound that never fires before the `rad <= 0`
gate when `fuel ≥ rad.toNat` (proved below), so `visit db rad.toNat` is the
source function. -/
def visit (db : DB) (fuel : Nat) (refName : String) (pos rad : Int)
    (segments : List Seg) (joins : List Join) (joinTaken : Option Join) :
    List Seg × List Join :=
  match fuel with
  | 0 => (segments, joins)
  | Nat.succ fuel =>
    match getReference db refName with
    | none => (segments, joins)
    | some ref =>
      if rad ≤ 0 then (segments, joins)
      else
        let joins1 := match joinTaken with
          | none => joins
          | some j => if joins.contains j then joins else joins ++ [j]
        let refStart := ref.start
        let refLength := ref.length
        let segStart := max refStart (pos - rad)
        let segEnd := min (refStart + refLength) (pos + rad)
        if segments.any (segContains refName segStart segEnd) then
          (segments, joins1)
        else
          let segments1 := mergeSegs refName segStart segEnd segments
          let foundJoins := getJoins db (some refName) segStart (some segEnd)
          foundJoins.foldl
            (stepJoin (fun r p rd st jt => visit db fuel r p rd st.1 st.2 jt)
              refName pos rad segStart segEnd)
            (segments1, joins1)

/-- `SideGraph.getSubgraph`: run the recursive visit from the seed with empty
accumulators and no incoming join. -/
def getSubgraph (db : DB) (refName : String) (seedPosition radius : Int) :
    List Seg × List Join :=
  visit db radius.toNat refName seedPosition radius [] [] none

/-- A point `x` of reference `n` is covered by the accumulated segment list. -/
def covered (segs : List Seg) (n : String) (x : Int) : Prop :=
  ∃ s ∈ segs, s.name = n ∧ s.start ≤ x ∧ x < s.start + s.length

instance (segs : List Seg) (n : String) (x : Int) : Decidable (covered segs n x) := by
  unfold covered; infer_instance

/-- Two segments are compatible when they are not a same-reference pair of
nonempty half-open intervals that overlap or touch. -/
def segCompat (s t : Seg) : Prop :=
  ¬(s.name = t.name ∧ 0 < s.length ∧ 0 < t.length ∧
    s.start ≤ t.start + t.length ∧ t.start ≤ s.start + s.length)

/-- A segment lies inside the extent of its (existing) catalog reference. -/
def segInRef (db : DB) (s : Seg) : Prop :=
  ∃ rec, getReference db s.name = some rec ∧
    rec.start ≤ s.start ∧ s.start + s.length ≤ rec.start + rec.length

/-- Every join endpoint resolves in the catalog and lies inside its
reference's extent (the Topology Store invariant assumed by the spec). -/
def endpointsOk (db : DB) : Prop :=
  ∀ j ∈ db.joins,
    (∃ lr, getReference db j.lref = some lr ∧ lr.start ≤ j.lpos ∧ j.lpos < lr.start + lr.length) ∧
    (∃ rr, getReference db j.rref = some rr ∧ rr.start ≤ j.rpos ∧ j.rpos < rr.start + rr.length)

/-- Both endpoints of a join are covered by the segment list. -/
def joinCovered (segs : List Seg) (j : Join) : Prop :=
  covered segs j.lref j.lpos ∧ covered segs j.rref j.rpos

/-- Concrete topologies used as witnesses and counterexamples. -/
def refsABC : List RefRec := [⟨"A", 0, 100⟩, ⟨"B", 0, 100⟩, ⟨"C", 0, 100⟩]

def joinAB1 : Join := ⟨"A", 11, Strand.R, "B", 50, Strand.F⟩

def joinAB2 : Join := ⟨"A", 19, Strand.R, "B", 45, Strand.F⟩

def joinBC : Join := ⟨"B", 46, Strand.R, "C", 50, Strand.F⟩

def dbOrder1 : DB := ⟨refsABC, [joinAB1, joinAB2, joinBC]⟩

def dbOrder2 : DB := ⟨refsABC, [joinAB2, joinAB1, joinBC]⟩

def joinAB5 : Join := ⟨"A", 11, Strand.R, "B", 30, Strand.F⟩

def joinAB6 : Join := ⟨"A", 12, Strand.R, "B", 60, Strand.F⟩

def joinBC2 : Join := ⟨"B", 45, Strand.R, "C", 50, Strand.F⟩

def dbRadius : DB := ⟨refsABC, [joinAB5, joinAB6, joinAB2, joinBC2]⟩

def joinAA : Join := ⟨"A", 99, Strand.F, "A", 120, Strand.F⟩

def dbSmall : DB := ⟨[⟨"A", 0, 200⟩], [joinAA]⟩

/-
Characterization of the join-following step (claim C2).  `stepJoinSpec` is the
specification-side restatement: a Reverse endpoint is followed exactly when its
position lies in `[anchor, segEnd]`, a Forward endpoint exactly when it lies in
`[segStart, anchor]`, and the recursion always receives
`rad - |endpointPos - anchor| - 1`.
-/

def stepJoinSpec (recur : String → Int → Int → List Seg × List Join → Option Join → List Seg × List Join)
    (refName : String) (pos rad segStart segEnd : Int)
    (st : List Seg × List Join) (j : Join) : List Seg × List Join :=
  let st1 :=
    if j.lref = refName ∧ j.lstr = Strand.R ∧ pos ≤ j.lpos ∧ j.lpos ≤ segEnd then
      recur j.rref j.rpos (rad - |j.lpos - pos| - 1) st (some j)
    else if j.lref = refName ∧ j.lstr = Strand.F ∧ segStart ≤ j.lpos ∧ j.lpos ≤ pos then
      recur j.rref j.rpos (rad - |j.lpos - pos| - 1) st (some j)
    else st
  if j.rref = refName ∧ j.rstr = Strand.R ∧ pos ≤ j.rpos ∧ j.rpos ≤ segEnd then
    recur j.lref j.lpos (rad - |j.rpos - pos| - 1) st1 (some j)
  else if j.rref = refName ∧ j.rstr = Strand.F ∧ segStart ≤ j.rpos ∧ j.rpos ≤ pos then
    recur j.lref j.lpos (rad - |j.rpos - pos| - 1) st1 (some j)
  else st1

lemma chainSpec (recur : String → Int → Int → List Seg × List Join → Option Join → List Seg × List Join)
    (refName : String) (pos rad segStart segEnd : Int)
    (st : List Seg × List Join) (j : Join)
    (qref : String) (qpos : Int) (qstr : Strand) (oref : String) (opos : Int) :
    (if qref == refName && qstr == Strand.R && decide (pos ≤ qpos) && decide (qpos ≤ segEnd) then
      recur oref opos (rad - qpos + pos - 1) st (some j)
    else if qref == refName && qstr == Strand.F && decide (segStart ≤ qpos) && decide (qpos ≤ pos) then
      recur oref opos (rad - pos + qpos - 1) st (some j)
    else st)
    = (if qref = refName ∧ qstr = Strand.R ∧ pos ≤ qpos ∧ qpos ≤ segEnd then
      recur oref opos (rad - |qpos - pos| - 1) st (some j)
    else if qref = refName ∧ qstr = Strand.F ∧ segStart ≤ qpos ∧ qpos ≤ pos then
      recur oref opos (rad - |qpos - pos| - 1) st (some j)
    else st) := by
  have eR : pos ≤ qpos → rad - qpos + pos - 1 = rad - |qpos - pos| - 1 := by
    intro h
    rw [abs_of_nonneg (by omega : (0:Int) ≤ qpos - pos)]
    ring
  have eF : qpos ≤ pos → rad - pos + qpos - 1 = rad - |qpos - pos| - 1 := by
    intro h
    rw [abs_of_nonpos (by omega : qpos - pos ≤ (0:Int))]
    ring
  simp only [Bool.and_eq_true, beq_iff_eq, decide_eq_true_eq, and_assoc]
  split_ifs with h h'
  · rw [eR h.2.2.1]
  · rw [eF h'.2.2.2]
  · rfl

/-- C2: in each visit, a join endpoint on the current reference with strand
Reverse is followed iff its position `p` satisfies `pos ≤ p ≤ segEnd`, one with
strand Forward iff `segStart ≤ p ≤ pos`; the recursion then enters the other
endpoint with remaining radius `rad - |p - pos| - 1`, and a self-join runs the
side-1 chain and then the side-2 chain (once per endpoint role). -/
theorem stepJoin_follows_reachable_joins
    (recur : String → Int → Int → List Seg × List Join → Option Join → List Seg × List Join)
    (refName : String) (pos rad segStart segEnd : Int)
    (st : List Seg × List Join) (j : Join) :
    stepJoin recur refName pos rad segStart segEnd st j =
    stepJoinSpec recur refName pos rad segStart segEnd st j := by
  unfold stepJoin stepJoinSpec
  rw [chainSpec recur refName pos rad segStart segEnd st j j.lref j.lpos j.lstr j.rref j.rpos]
  rw [chainSpec recur refName pos rad segStart segEnd _ j j.rref j.rpos j.rstr j.lref j.lpos]

/-- C5: a seed reference absent from the catalog yields exactly `([], [])`, and
any recursive visit with non-positive remaining radius or an absent reference
name leaves the accumulated segment and join lists unchanged. -/
theorem getSubgraph_dead_end_empty :
    (∀ (db : DB) (name : String) (p r : Int), getReference db name = none →
      getSubgraph db name p r = ([], [])) ∧
    (∀ (db : DB) (fuel : Nat) (name : String) (p r : Int) (segs : List Seg)
      (joins : List Join) (jt : Option Join),
      r ≤ 0 ∨ getReference db name = none →
      visit db fuel name p r segs joins jt = (segs, joins)) := by
  constructor
  · intro db name p r h
    unfold getSubgraph
    cases hf : r.toNat with
    | zero => simp [visit]
    | succ k => simp [visit, h]
  · intro db fuel name p r segs joins jt h
    cases fuel with
    | zero => simp [visit]
    | succ k =>
      rcases h with h | h
      · cases hr : getReference db name with
        | none => simp [visit, hr]
        | some ref => simp [visit, hr, h]
      · simp [visit, h]

theorem getSubgraph_dead_end_empty_witness :
    getSubgraph dbSmall "Z" 7 5 = ([], []) ∧
    visit dbSmall 3 "A" 0 (-2) [] [] none = ([], []) :=
  ⟨getSubgraph_dead_end_empty.1 dbSmall "Z" 7 5 (by decide),
   getSubgraph_dead_end_empty.2 dbSmall 3 "A" 0 (-2) [] [] none (Or.inl (by decide))⟩

/-- C7 (corrected): the exact-filter description of `getJoins` holds only for a
reference name present in the catalog; the interval filter is inclusive on
either endpoint, and omitting `end` leaves only the `start` lower bound. -/
theorem getJoins_present_ref_exact (db : DB) (n : String) (s e : Int)
    (hn : n ∈ getRefNames db) :
    (∀ j, j ∈ getJoins db (some n) s (some e) ↔
      j ∈ db.joins ∧ ((j.lref = n ∧ s ≤ j.lpos ∧ j.lpos ≤ e) ∨
                      (j.rref = n ∧ s ≤ j.rpos ∧ j.rpos ≤ e))) ∧
    (∀ j, j ∈ getJoins db (some n) s none ↔
      j ∈ db.joins ∧ ((j.lref = n ∧ s ≤ j.lpos) ∨ (j.rref = n ∧ s ≤ j.rpos))) := by
  constructor <;> intro j <;>
    simp [getJoins, hn, List.mem_filter, and_assoc]

theorem getJoins_present_ref_exact_witness :
    joinAA ∈ getJoins dbSmall (some "A") 0 (some 99) ↔
      joinAA ∈ dbSmall.joins ∧
        ((joinAA.lref = "A" ∧ 0 ≤ joinAA.lpos ∧ joinAA.lpos ≤ 99) ∨
         (joinAA.rref = "A" ∧ 0 ≤ joinAA.rpos ∧ joinAA.rpos ≤ 99)) :=
  (getJoins_present_ref_exact dbSmall "A" 0 99 (by decide)).1 joinAA

/-- C7 counterexample: for a reference name absent from the catalog the SQL
filter is skipped entirely, so `getJoins` returns every join, including one
with no endpoint on that reference at all. -/
theorem getJoins_absent_ref_cex :
    joinAA ∈ getJoins dbSmall (some "C") 0 (some 5) ∧
    ¬((joinAA.lref = "C" ∧ 0 ≤ joinAA.lpos ∧ joinAA.lpos ≤ 5) ∨
      (joinAA.rref = "C" ∧ 0 ≤ joinAA.rpos ∧ joinAA.rpos ≤ 5)) := by decide

/-- C8: calling `getJoins` with `end` supplied but no `refName` is not rejected
as the docstring demands; the interval is silently ignored and every join is
returned, here one whose positions 99 and 120 lie far outside `[0, 5]`. -/
theorem getJoins_end_without_refName_not_rejected :
    getJoins dbSmall none 0 (some 5) = [joinAA] ∧
    ¬(joinAA.lpos ≤ 5) ∧ ¬(joinAA.rpos ≤ 5) := by decide

/-- C3 counterexample: same catalog, same join set (a permutation swapping the
first two joins), same seed and radius, yet one traversal order discovers a
segment on reference "C" and the other discovers none: the final segment sets
are not equal as sets of triples. -/
theorem getSubgraph_order_dependence_cex :
    dbOrder1.refs = dbOrder2.refs ∧ dbOrder1.joins.Perm dbOrder2.joins ∧
    (⟨"C", 42, 16⟩ : Seg) ∈ (getSubgraph dbOrder2 "A" 10 20).1 ∧
    ∀ s ∈ (getSubgraph dbOrder1 "A" 10 20).1, s.name ≠ "C" := by decide

/-- C4 counterexample: with the same topology and seed, radius 13 reaches a
segment on reference "C" (via join `joinBC2`) but radius 18 prunes the visit
that would reach it, so neither the segment coverage nor the join set is
monotone in the radius. -/
theorem getSubgraph_radius_monotonicity_cex :
    (⟨"C", 48, 4⟩ : Seg) ∈ (getSubgraph dbRadius "A" 10 13).1 ∧
    (∀ s ∈ (getSubgraph dbRadius "A" 10 18).1, s.name ≠ "C") ∧
    joinBC2 ∈ (getSubgraph dbRadius "A" 10 13).2 ∧
    joinBC2 ∉ (getSubgraph dbRadius "A" 10 18).2 := by decide
lemma foldl_congr_mem {α β : Type} {f g : α → β → α} {l : List β} {a : α}
    (h : ∀ a' b, b ∈ l → f a' b = g a' b) : l.foldl f a = l.foldl g a := by
  induction l generalizing a with
  | nil => rfl
  | cons x xs ih =>
    simp only [List.foldl_cons]
    rw [h a x (by simp)]
    exact ih (fun a' b hb => h a' b (by simp [hb]))

lemma foldl_preserve {α β : Type} (P : α → Prop) (f : α → β → α) (l : List β) (a : α)
    (h : ∀ a' b, b ∈ l → P a' → P (f a' b)) (ha : P a) : P (l.foldl f a) := by
  induction l generalizing a with
  | nil => exact ha
  | cons x xs ih =>
    simp only [List.foldl_cons]
    exact ih (f a x) (fun a' b hb => h a' b (by simp [hb])) (h a x (by simp) ha)

lemma foldl_minStart_le_init (l : List Seg) (a : Int) :
    l.foldl (fun a s => min a s.start) a ≤ a := by
  induction l generalizing a with
  | nil => simp
  | cons x xs ih =>
    simp only [List.foldl_cons]
    exact le_trans (ih (min a x.start)) (by simp)

lemma foldl_minStart_le_mem : ∀ (l : List Seg) (a : Int) (s : Seg), s ∈ l →
    l.foldl (fun a s => min a s.start) a ≤ s.start := by
  intro l
  induction l with
  | nil => intro a s hs; cases hs
  | cons x xs ih =>
    intro a s hs
    simp only [List.foldl_cons]
    rcases List.mem_cons.mp hs with h | h
    · subst h
      exact le_trans (foldl_minStart_le_init xs _) (by simp)
    · exact ih _ s h

lemma foldl_minStart_eq_init_or_mem (l : List Seg) (a : Int) :
    l.foldl (fun a s => min a s.start) a = a ∨
    ∃ s ∈ l, l.foldl (fun a s => min a s.start) a = s.start := by
  induction l generalizing a with
  | nil => exact Or.inl rfl
  | cons x xs ih =>
    simp only [List.foldl_cons]
    rcases ih (min a x.start) with h | ⟨s, hs, h⟩
    · rcases min_cases a x.start with ⟨he, _⟩ | ⟨he, _⟩
      · exact Or.inl (by rw [h, he])
      · exact Or.inr ⟨x, by simp, by rw [h, he]⟩
    · exact Or.inr ⟨s, by simp [hs], h⟩

lemma le_foldl_minStart : ∀ (l : List Seg) (a b : Int), b ≤ a → (∀ s ∈ l, b ≤ s.start) →
    b ≤ l.foldl (fun a s => min a s.start) a := by
  intro l
  induction l with
  | nil => intro a b hb h; exact hb
  | cons x xs ih =>
    intro a b hb h
    simp only [List.foldl_cons]
    exact ih _ b (le_min hb (h x (by simp))) (fun s hs => h s (by simp [hs]))

lemma foldl_maxEnd_ge_init (l : List Seg) (a : Int) :
    a ≤ l.foldl (fun a s => max a (s.start + s.length)) a := by
  induction l generalizing a with
  | nil => simp
  | cons x xs ih =>
    simp only [List.foldl_cons]
    exact le_trans (by simp) (ih (max a (x.start + x.length)))

lemma foldl_maxEnd_ge_mem : ∀ (l : List Seg) (a : Int) (s : Seg), s ∈ l →
    s.start + s.length ≤ l.foldl (fun a s => max a (s.start + s.length)) a := by
  intro l
  induction l with
  | nil => intro a s hs; cases hs
  | cons x xs ih =>
    intro a s hs
    simp only [List.foldl_cons]
    rcases List.mem_cons.mp hs with h | h
    · subst h
      exact le_trans (by simp) (foldl_maxEnd_ge_init xs _)
    · exact ih _ s h

lemma foldl_maxEnd_eq_init_or_mem (l : List Seg) (a : Int) :
    l.foldl (fun a s => max a (s.start + s.length)) a = a ∨
    ∃ s ∈ l, l.foldl (fun a s => max a (s.start + s.length)) a = s.start + s.length := by
  induction l generalizing a with
  | nil => exact Or.inl rfl
  | cons x xs ih =>
    simp only [List.foldl_cons]
    rcases ih (max a (x.start + x.length)) with h | ⟨s, hs, h⟩
    · rcases max_cases a (x.start + x.length) with ⟨he, _⟩ | ⟨he, _⟩
      · exact Or.inl (by rw [h, he])
      · exact Or.inr ⟨x, by simp, by rw [h, he]⟩
    · exact Or.inr ⟨s, by simp [hs], h⟩

lemma foldl_maxEnd_le : ∀ (l : List Seg) (a b : Int), a ≤ b → (∀ s ∈ l, s.start + s.length ≤ b) →
    l.foldl (fun a s => max a (s.start + s.length)) a ≤ b := by
  intro l
  induction l with
  | nil => intro a b hb h; exact hb
  | cons x xs ih =>
    intro a b hb h
    simp only [List.foldl_cons]
    exact ih _ b (max_le hb (h x (by simp))) (fun s hs => h s (by simp [hs]))

lemma segIntersects_iff {rn : String} {cs ce : Int} {s : Seg} :
    segIntersects rn cs ce s = true ↔
    s.name = rn ∧ ((cs ≤ s.start ∧ s.start ≤ ce) ∨
                   (cs ≤ s.start + s.length ∧ s.start + s.length ≤ ce)) := by
  simp [segIntersects]

lemma segContains_iff {rn : String} {cs ce : Int} {s : Seg} :
    segContains rn cs ce s = true ↔
    s.name = rn ∧ s.start ≤ cs ∧ ce ≤ s.start + s.length := by
  simp [segContains, and_assoc]

lemma covered_mergeSegs (rn : String) (cs ce : Int) (segs : List Seg) (n : String) (x : Int) :
    covered (mergeSegs rn cs ce segs) n x ↔
      covered segs n x ∨ (n = rn ∧ cs ≤ x ∧ x < ce) := by
  unfold covered
  simp only [mergeSegs]
  set inter := segs.filter (segIntersects rn cs ce) with hinter
  set uS := inter.foldl (fun a s => min a s.start) cs with huS
  set uE := inter.foldl (fun a s => max a (s.start + s.length)) ce with huE
  have hUle : uS ≤ cs := foldl_minStart_le_init _ _
  have hUge : ce ≤ uE := foldl_maxEnd_ge_init _ _
  constructor
  · rintro ⟨s, hs, hname, hx1, hx2⟩
    rcases List.mem_append.mp hs with hk | hu
    · exact Or.inl ⟨s, (List.mem_filter.mp hk).1, hname, hx1, hx2⟩
    · rw [List.mem_singleton] at hu
      subst hu
      dsimp only at hname hx1 hx2
      subst hname
      have hx2' : x < uE := by omega
      rcases lt_or_le x cs with hlt | hge
      · rcases foldl_minStart_eq_init_or_mem inter cs with he | ⟨s, hsm, he⟩
        · rw [← huS] at he
          omega
        · rw [← huS] at he
          have hsegs := (List.mem_filter.mp hsm).1
          have hint := segIntersects_iff.mp (List.mem_filter.mp hsm).2
          rcases hint.2 with ⟨h1, h2⟩ | ⟨h1, h2⟩
          · omega
          · exact Or.inl ⟨s, hsegs, hint.1, by omega, by omega⟩
      · rcases lt_or_le x ce with hmid | hge2
        · exact Or.inr ⟨rfl, hge, hmid⟩
        · rcases foldl_maxEnd_eq_init_or_mem inter ce with he | ⟨s, hsm, he⟩
          · rw [← huE] at he
            omega
          · rw [← huE] at he
            have hsegs := (List.mem_filter.mp hsm).1
            have hint := segIntersects_iff.mp (List.mem_filter.mp hsm).2
            rcases hint.2 with ⟨h1, h2⟩ | ⟨h1, h2⟩
            · exact Or.inl ⟨s, hsegs, hint.1, by omega, by omega⟩
            · omega
  · rintro (⟨s, hs, hname, hx1, hx2⟩ | ⟨hn, hx1, hx2⟩)
    · by_cases hi : segIntersects rn cs ce s = true
      · have hmem : s ∈ inter := List.mem_filter.mpr ⟨hs, hi⟩
        have h1 : uS ≤ s.start := huS ▸ foldl_minStart_le_mem inter cs s hmem
        have h2 : s.start + s.length ≤ uE := huE ▸ foldl_maxEnd_ge_mem inter ce s hmem
        refine ⟨⟨rn, uS, uE - uS⟩, List.mem_append.mpr (Or.inr (List.mem_singleton.mpr rfl)), ?_, ?_, ?_⟩
        · dsimp only
          rw [← (segIntersects_iff.mp hi).1]
          exact hname
        · dsimp only
          omega
        · dsimp only
          omega
      · exact ⟨s, List.mem_append.mpr (Or.inl (List.mem_filter.mpr ⟨hs, by simp [hi]⟩)),
          hname, hx1, hx2⟩
    · refine ⟨⟨rn, uS, uE - uS⟩, List.mem_append.mpr (Or.inr (List.mem_singleton.mpr rfl)), ?_, ?_, ?_⟩
      · dsimp only
        exact hn.symm
      · dsimp only
        omega
      · dsimp only
        omega

/-- C3 (amended): the merge step is order-independent at the level of covered
positions: merging a candidate window into the accumulated segment list yields
exactly the old covered set united with the window, however the accumulated
segments are arranged or grouped.  Full extraction order-independence fails,
see `getSubgraph_order_dependence_cex`. -/
theorem mergeSegs_covered_iff (rn : String) (cs ce : Int) (segs : List Seg)
    (n : String) (x : Int) :
    covered (mergeSegs rn cs ce segs) n x ↔
      covered segs n x ∨ (n = rn ∧ cs ≤ x ∧ x < ce) :=
  covered_mergeSegs rn cs ce segs n x

lemma stepJoin_visit_preserves (db : DB) (P : List Seg → Prop) (fuel : Nat)
    (hmono : ∀ rn pos rad segs joins jt, P segs → P (visit db fuel rn pos rad segs joins jt).1)
    (rn : String) (pos rad cs ce : Int) :
    ∀ (st : List Seg × List Join) (j : Join), P st.1 →
      P ((stepJoin (fun r p rd st jt => visit db fuel r p rd st.1 st.2 jt) rn pos rad cs ce st j).1) := by
  intro st j hP
  unfold stepJoin
  dsimp only
  split_ifs <;> (repeat apply hmono) <;> exact hP

lemma visit_preserves_seg (db : DB) (P : List Seg → Prop)
    (hstep : ∀ (rn : String) (ref : RefRec), getReference db rn = some ref →
      ∀ (pos rad : Int) (segs : List Seg), 0 < rad → P segs →
      segs.any (segContains rn (max ref.start (pos - rad)) (min (ref.start + ref.length) (pos + rad))) = false →
      P (mergeSegs rn (max ref.start (pos - rad)) (min (ref.start + ref.length) (pos + rad)) segs)) :
    ∀ (fuel : Nat) (rn : String) (pos rad : Int) (segs : List Seg)
      (joins : List Join) (jt : Option Join),
      P segs → P (visit db fuel rn pos rad segs joins jt).1 := by
  intro fuel
  induction fuel with
  | zero => intro rn pos rad segs joins jt h; exact h
  | succ fuel ih =>
    intro rn pos rad segs joins jt h
    cases href : getReference db rn with
    | none => simpa [visit, href] using h
    | some ref =>
      by_cases hrad : rad ≤ 0
      · simpa [visit, href, hrad] using h
      · simp only [visit, href, if_neg hrad]
        split
        · exact h
        · next hany =>
          refine foldl_preserve (fun st => P st.1) _ _ _
            (fun st' j' hj' hp' => stepJoin_visit_preserves db P fuel ih rn pos rad _ _ st' j' hp') ?_
          exact hstep rn ref href pos rad segs (by omega) h (by simpa using hany)

lemma mergeSegs_segInRef (db : DB) (rn : String) (ref : RefRec)
    (href : getReference db rn = some ref) (cs ce : Int)
    (hcs : ref.start ≤ cs) (hce : ce ≤ ref.start + ref.length)
    (segs : List Seg) (hP : ∀ s ∈ segs, segInRef db s) :
    ∀ s ∈ mergeSegs rn cs ce segs, segInRef db s := by
  intro s hs
  unfold mergeSegs at hs
  rcases List.mem_append.mp hs with hk | hu
  · exact hP s (List.mem_filter.mp hk).1
  · rw [List.mem_singleton] at hu
    subst hu
    have hIlo : ∀ I ∈ segs.filter (segIntersects rn cs ce), ref.start ≤ I.start := by
      intro I hI
      obtain ⟨rec', hrec', hlo, hhi⟩ := hP I (List.mem_filter.mp hI).1
      have hIn : I.name = rn := (segIntersects_iff.mp (List.mem_filter.mp hI).2).1
      rw [hIn, href] at hrec'
      cases hrec'
      exact hlo
    have hIhi : ∀ I ∈ segs.filter (segIntersects rn cs ce),
        I.start + I.length ≤ ref.start + ref.length := by
      intro I hI
      obtain ⟨rec', hrec', hlo, hhi⟩ := hP I (List.mem_filter.mp hI).1
      have hIn : I.name = rn := (segIntersects_iff.mp (List.mem_filter.mp hI).2).1
      rw [hIn, href] at hrec'
      cases hrec'
      exact hhi
    have h1 : ref.start ≤ (segs.filter (segIntersects rn cs ce)).foldl
        (fun a s => min a s.start) cs := le_foldl_minStart _ _ _ hcs hIlo
    have h2 : (segs.filter (segIntersects rn cs ce)).foldl
        (fun a s => max a (s.start + s.length)) ce ≤ ref.start + ref.length :=
      foldl_maxEnd_le _ _ _ hce hIhi
    exact ⟨ref, href, by dsimp only; omega, by dsimp only; omega⟩

lemma visit_segInRef (db : DB) :
    ∀ (fuel : Nat) (rn : String) (pos rad : Int) (segs : List Seg)
      (joins : List Join) (jt : Option Join),
      (∀ s ∈ segs, segInRef db s) →
      ∀ s ∈ (visit db fuel rn pos rad segs joins jt).1, segInRef db s := by
  refine visit_preserves_seg db (fun segs => ∀ s ∈ segs, segInRef db s) ?_
  intro rn ref href pos rad segs hrad hP hany
  exact mergeSegs_segInRef db rn ref href _ _ (le_max_left _ _) (min_le_left _ _) segs hP

/-- C6: every segment of a `getSubgraph` result lies within the extent of its
catalog reference record: each visit's candidate window is clipped to
`[refStart, refStart + refLength)` and unions of clipped same-reference windows
stay within that extent. -/
theorem getSubgraph_segments_within_reference (db : DB) (n : String) (p r : Int) :
    ∀ s ∈ (getSubgraph db n p r).1, segInRef db s :=
  visit_segInRef db r.toNat n p r [] [] none (by simp)

theorem getSubgraph_segments_within_reference_witness :
    (⟨"A", 5, 10⟩ : Seg) ∈ (getSubgraph dbSmall "A" 10 5).1 ∧
    segInRef dbSmall ⟨"A", 5, 10⟩ :=
  ⟨by decide, getSubgraph_segments_within_reference dbSmall "A" 10 5 ⟨"A", 5, 10⟩ (by decide)⟩

lemma visit_covered_mono (db : DB) (m : String) (x : Int) :
    ∀ (fuel : Nat) (rn : String) (pos rad : Int) (segs : List Seg)
      (joins : List Join) (jt : Option Join),
      covered segs m x → covered (visit db fuel rn pos rad segs joins jt).1 m x := by
  refine visit_preserves_seg db (fun segs => covered segs m x) ?_
  intro rn ref href pos rad segs hrad hc hany
  rw [covered_mergeSegs]
  exact Or.inl hc

/-- C4 (amended): when the seed reference exists and `0 < r1 ≤ r2`, the
radius-`r2` result covers the whole radius-`r1` seed window
`[max(refStart, seed - r1), min(refStart + refLength, seed + r1))`; full
segment-coverage and join-set monotonicity fail, see
`getSubgraph_radius_monotonicity_cex`. -/
theorem getSubgraph_covers_seed_window (db : DB) (n : String) (p r1 r2 : Int) (ref : RefRec)
    (href : getReference db n = some ref) (h1 : 0 < r1) (h12 : r1 ≤ r2) (x : Int)
    (hx1 : max ref.start (p - r1) ≤ x) (hx2 : x < min (ref.start + ref.length) (p + r1)) :
    covered (getSubgraph db n p r2).1 n x := by
  unfold getSubgraph
  have hr2 : 0 < r2 := lt_of_lt_of_le h1 h12
  obtain ⟨k, hk⟩ : ∃ k, r2.toNat = k + 1 := ⟨r2.toNat - 1, by omega⟩
  rw [hk]
  simp only [visit, href, if_neg (by omega : ¬ r2 ≤ 0)]
  rw [if_neg (by simp)]
  refine foldl_preserve (fun st => covered st.1 n x) _ _ _
    (fun st' j' hj' hc' => stepJoin_visit_preserves db (fun segs => covered segs n x) k
      (visit_covered_mono db n x k) n p r2 _ _ st' j' hc') ?_
  dsimp only
  rw [covered_mergeSegs]
  right
  refine ⟨rfl, by omega, by omega⟩

theorem getSubgraph_covers_seed_window_witness :
    covered (getSubgraph dbSmall "A" 10 5).1 "A" 9 :=
  getSubgraph_covers_seed_window dbSmall "A" 10 2 5 ⟨"A", 0, 200⟩ (by decide) (by decide)
    (by decide) 9 (by decide) (by decide)

lemma segCompat_symm : Symmetric segCompat := by
  intro s t h ⟨hn, h1, h2, h3, h4⟩
  exact h ⟨hn.symm, h2, h1, h4, h3⟩

lemma mergeSegs_pairwise (rn : String) (cs ce : Int) (segs : List Seg)
    (hP : segs.Pairwise segCompat)
    (hnc : ∀ s ∈ segs, segContains rn cs ce s = false) :
    (mergeSegs rn cs ce segs).Pairwise segCompat := by
  unfold mergeSegs
  set inter := segs.filter (segIntersects rn cs ce) with hinter
  set uS := inter.foldl (fun a s => min a s.start) cs with huS
  set uE := inter.foldl (fun a s => max a (s.start + s.length)) ce with huE
  rw [List.pairwise_append]
  refine ⟨hP.sublist (List.filter_sublist _), List.pairwise_singleton _ _, ?_⟩
  intro K hK u hu
  rw [List.mem_singleton] at hu
  subst hu
  have hKsegs : K ∈ segs := (List.mem_filter.mp hK).1
  have hKni : segIntersects rn cs ce K = false := by
    simpa using (List.mem_filter.mp hK).2
  have hUle : uS ≤ cs := huS ▸ foldl_minStart_le_init _ _
  have hUge : ce ≤ uE := huE ▸ foldl_maxEnd_ge_init _ _
  rintro ⟨hname, hKlen, hUlen, h1, h2⟩
  dsimp only at hname hUlen h1 h2
  have hKnc : ¬(K.start ≤ cs ∧ ce ≤ K.start + K.length) := by
    intro hh
    have ht : segContains rn cs ce K = true := segContains_iff.mpr ⟨hname, hh.1, hh.2⟩
    rw [hnc K hKsegs] at ht
    cases ht
  have hKint : ¬((cs ≤ K.start ∧ K.start ≤ ce) ∨
      (cs ≤ K.start + K.length ∧ K.start + K.length ≤ ce)) := by
    intro hh
    have ht : segIntersects rn cs ce K = true := segIntersects_iff.mpr ⟨hname, hh⟩
    rw [hKni] at ht
    cases ht
  have compatOf : ∀ I ∈ inter, 0 < I.length →
      ¬(K.start ≤ I.start + I.length ∧ I.start ≤ K.start + K.length) := by
    intro I hI hIlen hh
    have hIsegs : I ∈ segs := (List.mem_filter.mp hI).1
    have hIint : segIntersects rn cs ce I = true := (List.mem_filter.mp hI).2
    have hne : K ≠ I := by
      intro he
      rw [← he] at hIint
      rw [hKni] at hIint
      cases hIint
    have hIname : I.name = rn := (segIntersects_iff.mp hIint).1
    exact (hP.forall segCompat_symm) hKsegs hIsegs hne
      ⟨hname.trans hIname.symm, hKlen, hIlen, hh.1, hh.2⟩
  by_cases hEce : uE = ce
  · by_cases hScs : uS = cs
    · omega
    · rcases foldl_minStart_eq_init_or_mem inter cs with he | ⟨I2, hI2m, he⟩
      · rw [← huS] at he
        omega
      · rw [← huS] at he
        have hI2d := (segIntersects_iff.mp (List.mem_filter.mp hI2m).2).2
        have hI2len : 0 < I2.length := by omega
        have := compatOf I2 hI2m hI2len
        omega
  · rcases foldl_maxEnd_eq_init_or_mem inter ce with he | ⟨I1, hI1m, he⟩
    · rw [← huE] at he
      omega
    · rw [← huE] at he
      have hI1d := (segIntersects_iff.mp (List.mem_filter.mp hI1m).2).2
      have hI1len : 0 < I1.length := by omega
      have hc1 := compatOf I1 hI1m hI1len
      by_cases hScs : uS = cs
      · omega
      · rcases foldl_minStart_eq_init_or_mem inter cs with he2 | ⟨I2, hI2m, he2⟩
        · rw [← huS] at he2
          omega
        · rw [← huS] at he2
          have hI2d := (segIntersects_iff.mp (List.mem_filter.mp hI2m).2).2
          have hI2len : 0 < I2.length := by omega
          have hc2 := compatOf I2 hI2m hI2len
          omega

lemma visit_pairwise (db : DB) :
    ∀ (fuel : Nat) (rn : String) (pos rad : Int) (segs : List Seg)
      (joins : List Join) (jt : Option Join),
      segs.Pairwise segCompat → (visit db fuel rn pos rad segs joins jt).1.Pairwise segCompat := by
  refine visit_preserves_seg db (fun segs => segs.Pairwise segCompat) ?_
  intro rn ref href pos rad segs hrad hP hany
  refine mergeSegs_pairwise _ _ _ segs hP ?_
  intro s hs
  have := List.any_eq_false.mp hany s hs
  simpa using this

/-- C1: a `getSubgraph` result never contains two segments on the same
reference whose nonempty half-open intervals overlap or touch: any candidate
overlapping or touching accumulated same-reference segments replaces them by
the single union segment, and a candidate contained in an accumulated segment
adds nothing, so the segment list is pairwise compatible. -/
theorem getSubgraph_segments_pairwise_compat (db : DB) (n : String) (p r : Int) :
    (getSubgraph db n p r).1.Pairwise segCompat :=
  visit_pairwise db r.toNat n p r [] [] none (List.Pairwise.nil)

lemma visit_nonpos (db : DB) (fuel : Nat) (rn : String) (pos rad : Int)
    (segs : List Seg) (joins : List Join) (jt : Option Join) (h : rad ≤ 0) :
    visit db fuel rn pos rad segs joins jt = (segs, joins) := by
  cases fuel with
  | zero => simp [visit]
  | succ k =>
    cases hr : getReference db rn with
    | none => simp [visit, hr]
    | some ref => simp [visit, hr, h]

lemma visit_fuel_eq (db : DB) :
    ∀ (f1 f2 : Nat) (rn : String) (pos rad : Int) (segs : List Seg)
      (joins : List Join) (jt : Option Join),
      rad.toNat ≤ f1 → rad.toNat ≤ f2 →
      visit db f1 rn pos rad segs joins jt = visit db f2 rn pos rad segs joins jt := by
  intro f1
  induction f1 with
  | zero =>
    intro f2 rn pos rad segs joins jt h1 h2
    have : rad ≤ 0 := by omega
    rw [visit_nonpos db 0 rn pos rad segs joins jt this,
      visit_nonpos db f2 rn pos rad segs joins jt this]
  | succ f1 ih =>
    intro f2 rn pos rad segs joins jt h1 h2
    by_cases hrad : rad ≤ 0
    · rw [visit_nonpos db _ rn pos rad segs joins jt hrad,
        visit_nonpos db f2 rn pos rad segs joins jt hrad]
    · obtain ⟨f2', rfl⟩ : ∃ k, f2 = k + 1 := ⟨f2 - 1, by omega⟩
      cases href : getReference db rn with
      | none => simp [visit, href]
      | some ref =>
        simp only [visit, href, if_neg hrad]
        by_cases hany : segs.any (segContains rn (max ref.start (pos - rad))
            (min (ref.start + ref.length) (pos + rad))) = true
        · simp only [if_pos hany]
        · simp only [if_neg hany]
          refine foldl_congr_mem ?_
          intro st j hj
          unfold stepJoin
          dsimp only
          have key : ∀ (oref : String) (opos rd : Int) (st' : List Seg × List Join),
              rd ≤ rad - 1 →
              visit db f1 oref opos rd st'.1 st'.2 (some j) =
              visit db f2' oref opos rd st'.1 st'.2 (some j) := by
            intro oref opos rd st' hrd
            exact ih f2' oref opos rd st'.1 st'.2 (some j) (by omega) (by omega)
          have hst1 : (if (j.lref == rn && j.lstr == Strand.R && decide (pos ≤ j.lpos) &&
                decide (j.lpos ≤ min (ref.start + ref.length) (pos + rad))) = true then
              visit db f1 j.rref j.rpos (rad - j.lpos + pos - 1) st.1 st.2 (some j)
            else if (j.lref == rn && j.lstr == Strand.F && decide (max ref.start (pos - rad) ≤ j.lpos) &&
                decide (j.lpos ≤ pos)) = true then
              visit db f1 j.rref j.rpos (rad - pos + j.lpos - 1) st.1 st.2 (some j)
            else st) =
              (if (j.lref == rn && j.lstr == Strand.R && decide (pos ≤ j.lpos) &&
                decide (j.lpos ≤ min (ref.start + ref.length) (pos + rad))) = true then
              visit db f2' j.rref j.rpos (rad - j.lpos + pos - 1) st.1 st.2 (some j)
            else if (j.lref == rn && j.lstr == Strand.F && decide (max ref.start (pos - rad) ≤ j.lpos) &&
                decide (j.lpos ≤ pos)) = true then
              visit db f2' j.rref j.rpos (rad - pos + j.lpos - 1) st.1 st.2 (some j)
            else st) := by
            by_cases hc1 : (j.lref == rn && j.lstr == Strand.R && decide (pos ≤ j.lpos) &&
                decide (j.lpos ≤ min (ref.start + ref.length) (pos + rad))) = true
            · have hple : pos ≤ j.lpos := by
                simp only [Bool.and_eq_true, decide_eq_true_eq] at hc1
                exact hc1.1.2
              simp only [if_pos hc1]
              exact key _ _ _ st (by omega)
            · simp only [if_neg hc1]
              by_cases hc2 : (j.lref == rn && j.lstr == Strand.F && decide (max ref.start (pos - rad) ≤ j.lpos) &&
                  decide (j.lpos ≤ pos)) = true
              · have hple : j.lpos ≤ pos := by
                  simp only [Bool.and_eq_true, decide_eq_true_eq] at hc2
                  exact hc2.2
                simp only [if_pos hc2]
                exact key _ _ _ st (by omega)
              · simp only [if_neg hc2]
          rw [hst1]
          by_cases hc3 : (j.rref == rn && j.rstr == Strand.R && decide (pos ≤ j.rpos) &&
              decide (j.rpos ≤ min (ref.start + ref.length) (pos + rad))) = true
          · have hple : pos ≤ j.rpos := by
              simp only [Bool.and_eq_true, decide_eq_true_eq] at hc3
              exact hc3.1.2
            simp only [if_pos hc3]
            exact key _ _ _ _ (by omega)
          · simp only [if_neg hc3]
            by_cases hc4 : (j.rref == rn && j.rstr == Strand.F && decide (max ref.start (pos - rad) ≤ j.rpos) &&
                decide (j.rpos ≤ pos)) = true
            · have hple : j.rpos ≤ pos := by
                simp only [Bool.and_eq_true, decide_eq_true_eq] at hc4
                exact hc4.2
              simp only [if_pos hc4]
              exact key _ _ _ _ (by omega)
            · simp only [if_neg hc4]

/-- C9: `_getSubgraph` terminates because every recursive call decreases the
remaining radius by at least one (the distance consumed is non-negative under
the strand reachability conditions, plus one for crossing the join) and a
visit with non-positive radius returns at once: the structural fuel is
irrelevant as soon as it is at least `rad.toNat`, so the recursion depth is
bounded by the initial radius even on cyclic join graphs. -/
theorem visit_fuel_irrelevant (db : DB) (fuel : Nat) (rn : String) (pos rad : Int)
    (segs : List Seg) (joins : List Join) (jt : Option Join)
    (h : rad.toNat ≤ fuel) :
    visit db fuel rn pos rad segs joins jt = visit db rad.toNat rn pos rad segs joins jt :=
  visit_fuel_eq db fuel rad.toNat rn pos rad segs joins jt h (le_refl _)

theorem visit_fuel_irrelevant_witness :
    (5:Int).toNat ≤ 9 ∧
    visit dbSmall 9 "A" 100 5 [] [] none = visit dbSmall (5:Int).toNat "A" 100 5 [] [] none :=
  ⟨by decide, visit_fuel_irrelevant dbSmall 9 "A" 100 5 [] [] none (by decide)⟩

lemma getJoins_mem_db (db : DB) (a : Option String) (s : Int) (e : Option Int) :
    ∀ j ∈ getJoins db a s e, j ∈ db.joins := by
  intro j hj
  unfold getJoins at hj
  cases a with
  | none => exact hj
  | some n =>
    dsimp only at hj
    by_cases hb : ((getRefNames db).contains n) = true
    · rw [if_pos hb] at hj
      cases e with
      | none => exact (List.mem_filter.mp hj).1
      | some ev => exact (List.mem_filter.mp hj).1
    · rw [if_neg hb] at hj
      exact hj

lemma stepJoin_joins_covered (db : DB) (hdb : endpointsOk db) (fuel : Nat)
    (ih : ∀ (rn : String) (pos rad : Int) (segs : List Seg) (joins : List Join) (jt : Option Join),
      (∀ j ∈ joins, joinCovered segs j) →
      (∀ j, jt = some j → j ∈ db.joins ∧ (0 < rad → ∀ ref, getReference db rn = some ref →
          ((j.lref = rn ∧ j.lpos = pos ∧ covered segs j.rref j.rpos) ∨
           (j.rref = rn ∧ j.rpos = pos ∧ covered segs j.lref j.lpos)))) →
      ∀ j ∈ (visit db fuel rn pos rad segs joins jt).2,
        joinCovered (visit db fuel rn pos rad segs joins jt).1 j)
    (rn : String) (pos rad : Int) (ref : RefRec) (href : getReference db rn = some ref)
    (cs ce : Int) (hcs : cs = max ref.start (pos - rad))
    (hce : ce = min (ref.start + ref.length) (pos + rad))
    (base : List Seg)
    (hbase : ∀ y : Int, cs ≤ y → y < ce → covered base rn y)
    (st : List Seg × List Join) (j : Join) (hjdb : j ∈ db.joins)
    (hQ1 : ∀ j' ∈ st.2, joinCovered st.1 j')
    (hQ2 : ∀ m x, covered base m x → covered st.1 m x) :
    (∀ j' ∈ (stepJoin (fun r p rd st jt => visit db fuel r p rd st.1 st.2 jt)
        rn pos rad cs ce st j).2,
      joinCovered (stepJoin (fun r p rd st jt => visit db fuel r p rd st.1 st.2 jt)
        rn pos rad cs ce st j).1 j') ∧
    (∀ m x, covered base m x → covered (stepJoin (fun r p rd st jt => visit db fuel r p rd st.1 st.2 jt)
        rn pos rad cs ce st j).1 m x) := by
  have hextl : j.lref = rn → ref.start ≤ j.lpos ∧ j.lpos < ref.start + ref.length := by
    intro he
    obtain ⟨lr, hlr, h1, h2⟩ := (hdb j hjdb).1
    rw [he, href] at hlr
    cases hlr
    exact ⟨h1, h2⟩
  have hextr : j.rref = rn → ref.start ≤ j.rpos ∧ j.rpos < ref.start + ref.length := by
    intro he
    obtain ⟨rr, hrr, h1, h2⟩ := (hdb j hjdb).2
    rw [he, href] at hrr
    cases hrr
    exact ⟨h1, h2⟩
  have single : ∀ (oref : String) (opos rd : Int) (st' : List Seg × List Join),
      (∀ j' ∈ st'.2, joinCovered st'.1 j') →
      (∀ m x, covered base m x → covered st'.1 m x) →
      (0 < rd → ∀ refc, getReference db oref = some refc →
        ((j.lref = oref ∧ j.lpos = opos ∧ covered st'.1 j.rref j.rpos) ∨
         (j.rref = oref ∧ j.rpos = opos ∧ covered st'.1 j.lref j.lpos))) →
      (∀ j' ∈ (visit db fuel oref opos rd st'.1 st'.2 (some j)).2,
        joinCovered (visit db fuel oref opos rd st'.1 st'.2 (some j)).1 j') ∧
      (∀ m x, covered base m x →
        covered (visit db fuel oref opos rd st'.1 st'.2 (some j)).1 m x) := by
    intro oref opos rd st' h1 h2 hpre
    constructor
    · refine ih oref opos rd st'.1 st'.2 (some j) h1 ?_
      intro j' he
      injection he with he
      subst he
      exact ⟨hjdb, hpre⟩
    · intro m x hx
      exact visit_covered_mono db m x fuel oref opos rd st'.1 st'.2 (some j) (h2 m x hx)
  unfold stepJoin
  dsimp only
  by_cases hc1 : (j.lref == rn && j.lstr == Strand.R && decide (pos ≤ j.lpos) &&
      decide (j.lpos ≤ ce)) = true
  · have hc1' := hc1
    simp only [Bool.and_eq_true, beq_iff_eq, decide_eq_true_eq] at hc1'
    obtain ⟨⟨⟨hlr, _⟩, hp1⟩, hp2⟩ := hc1'
    simp only [if_pos hc1]
    have hin := single j.rref j.rpos (rad - j.lpos + pos - 1) st hQ1 hQ2 (by
      intro h0 refc hrefc
      right
      refine ⟨rfl, rfl, ?_⟩
      rw [hlr]
      refine hQ2 rn j.lpos (hbase j.lpos ?_ ?_)
      · have := hextl hlr
        omega
      · have := hextl hlr
        omega)
    by_cases hc3 : (j.rref == rn && j.rstr == Strand.R && decide (pos ≤ j.rpos) &&
        decide (j.rpos ≤ ce)) = true
    · have hc3' := hc3
      simp only [Bool.and_eq_true, beq_iff_eq, decide_eq_true_eq] at hc3'
      obtain ⟨⟨⟨hrr, _⟩, hq1⟩, hq2⟩ := hc3'
      simp only [if_pos hc3]
      refine single j.lref j.lpos (rad - j.rpos + pos - 1) _ hin.1 hin.2 ?_
      intro h0 refc hrefc
      left
      refine ⟨rfl, rfl, ?_⟩
      exact hrr.symm ▸ hin.2 rn j.rpos (hbase j.rpos
        (by have := hextr hrr; omega) (by have := hextr hrr; omega))
    · simp only [if_neg hc3]
      by_cases hc4 : (j.rref == rn && j.rstr == Strand.F && decide (cs ≤ j.rpos) &&
          decide (j.rpos ≤ pos)) = true
      · have hc4' := hc4
        simp only [Bool.and_eq_true, beq_iff_eq, decide_eq_true_eq] at hc4'
        obtain ⟨⟨⟨hrr, _⟩, hq1⟩, hq2⟩ := hc4'
        simp only [if_pos hc4]
        refine single j.lref j.lpos (rad - pos + j.rpos - 1) _ hin.1 hin.2 ?_
        intro h0 refc hrefc
        left
        refine ⟨rfl, rfl, ?_⟩
        exact hrr.symm ▸ hin.2 rn j.rpos (hbase j.rpos
          (by have := hextr hrr; omega) (by have := hextr hrr; omega))
      · simp only [if_neg hc4]
        exact hin
  · simp only [if_neg hc1]
    by_cases hc2 : (j.lref == rn && j.lstr == Strand.F && decide (cs ≤ j.lpos) &&
        decide (j.lpos ≤ pos)) = true
    · have hc2' := hc2
      simp only [Bool.and_eq_true, beq_iff_eq, decide_eq_true_eq] at hc2'
      obtain ⟨⟨⟨hlr, _⟩, hp1⟩, hp2⟩ := hc2'
      simp only [if_pos hc2]
      have hin := single j.rref j.rpos (rad - pos + j.lpos - 1) st hQ1 hQ2 (by
        intro h0 refc hrefc
        right
        refine ⟨rfl, rfl, ?_⟩
        rw [hlr]
        refine hQ2 rn j.lpos (hbase j.lpos ?_ ?_)
        · have := hextl hlr
          omega
        · have := hextl hlr
          omega)
      by_cases hc3 : (j.rref == rn && j.rstr == Strand.R && decide (pos ≤ j.rpos) &&
          decide (j.rpos ≤ ce)) = true
      · have hc3' := hc3
        simp only [Bool.and_eq_true, beq_iff_eq, decide_eq_true_eq] at hc3'
        obtain ⟨⟨⟨hrr, _⟩, hq1⟩, hq2⟩ := hc3'
        simp only [if_pos hc3]
        refine single j.lref j.lpos (rad - j.rpos + pos - 1) _ hin.1 hin.2 ?_
        intro h0 refc hrefc
        left
        refine ⟨rfl, rfl, ?_⟩
        exact hrr.symm ▸ hin.2 rn j.rpos (hbase j.rpos
          (by have := hextr hrr; omega) (by have := hextr hrr; omega))
      · simp only [if_neg hc3]
        by_cases hc4 : (j.rref == rn && j.rstr == Strand.F && decide (cs ≤ j.rpos) &&
            decide (j.rpos ≤ pos)) = true
        · have hc4' := hc4
          simp only [Bool.and_eq_true, beq_iff_eq, decide_eq_true_eq] at hc4'
          obtain ⟨⟨⟨hrr, _⟩, hq1⟩, hq2⟩ := hc4'
          simp only [if_pos hc4]
          refine single j.lref j.lpos (rad - pos + j.rpos - 1) _ hin.1 hin.2 ?_
          intro h0 refc hrefc
          left
          refine ⟨rfl, rfl, ?_⟩
          exact hrr.symm ▸ hin.2 rn j.rpos (hbase j.rpos
            (by have := hextr hrr; omega) (by have := hextr hrr; omega))
        · simp only [if_neg hc4]
          exact hin
    · simp only [if_neg hc2]
      by_cases hc3 : (j.rref == rn && j.rstr == Strand.R && decide (pos ≤ j.rpos) &&
          decide (j.rpos ≤ ce)) = true
      · have hc3' := hc3
        simp only [Bool.and_eq_true, beq_iff_eq, decide_eq_true_eq] at hc3'
        obtain ⟨⟨⟨hrr, _⟩, hq1⟩, hq2⟩ := hc3'
        simp only [if_pos hc3]
        refine single j.lref j.lpos (rad - j.rpos + pos - 1) st hQ1 hQ2 ?_
        intro h0 refc hrefc
        left
        refine ⟨rfl, rfl, ?_⟩
        rw [hrr]
        refine hQ2 rn j.rpos (hbase j.rpos ?_ ?_)
        · have := hextr hrr
          omega
        · have := hextr hrr
          omega
      · simp only [if_neg hc3]
        by_cases hc4 : (j.rref == rn && j.rstr == Strand.F && decide (cs ≤ j.rpos) &&
            decide (j.rpos ≤ pos)) = true
        · have hc4' := hc4
          simp only [Bool.and_eq_true, beq_iff_eq, decide_eq_true_eq] at hc4'
          obtain ⟨⟨⟨hrr, _⟩, hq1⟩, hq2⟩ := hc4'
          simp only [if_pos hc4]
          refine single j.lref j.lpos (rad - pos + j.rpos - 1) st hQ1 hQ2 ?_
          intro h0 refc hrefc
          left
          refine ⟨rfl, rfl, ?_⟩
          rw [hrr]
          refine hQ2 rn j.rpos (hbase j.rpos ?_ ?_)
          · have := hextr hrr
            omega
          · have := hextr hrr
            omega
        · simp only [if_neg hc4]
          exact ⟨hQ1, hQ2⟩

lemma visit_joins_covered (db : DB) (hdb : endpointsOk db) :
    ∀ (fuel : Nat) (rn : String) (pos rad : Int) (segs : List Seg)
      (joins : List Join) (jt : Option Join),
      (∀ j ∈ joins, joinCovered segs j) →
      (∀ j, jt = some j → j ∈ db.joins ∧ (0 < rad → ∀ ref, getReference db rn = some ref →
          ((j.lref = rn ∧ j.lpos = pos ∧ covered segs j.rref j.rpos) ∨
           (j.rref = rn ∧ j.rpos = pos ∧ covered segs j.lref j.lpos)))) →
      ∀ j ∈ (visit db fuel rn pos rad segs joins jt).2,
        joinCovered (visit db fuel rn pos rad segs joins jt).1 j := by
  intro fuel
  induction fuel with
  | zero =>
    intro rn pos rad segs joins jt hJ hjt j hj
    simp only [visit] at hj ⊢
    exact hJ j hj
  | succ fuel ih =>
    intro rn pos rad segs joins jt hJ hjt
    cases href : getReference db rn with
    | none =>
      simp only [visit, href]
      exact hJ
    | some ref =>
      by_cases hrad : rad ≤ 0
      · simp only [visit, href, if_pos hrad]
        exact hJ
      · simp only [visit, href, if_neg hrad]
        set cs := max ref.start (pos - rad) with hcs
        set ce := min (ref.start + ref.length) (pos + rad) with hce
        have hbase : ∀ y : Int, cs ≤ y → y < ce → covered (mergeSegs rn cs ce segs) rn y :=
          fun y h1 h2 => (covered_mergeSegs rn cs ce segs rn y).mpr (Or.inr ⟨rfl, h1, h2⟩)
        have hmono : ∀ m x, covered segs m x → covered (mergeSegs rn cs ce segs) m x :=
          fun m x h => (covered_mergeSegs rn cs ce segs m x).mpr (Or.inl h)
        have hfold : ∀ (j1 : List Join),
            (∀ j ∈ j1, joinCovered (mergeSegs rn cs ce segs) j) →
            ∀ j ∈ ((getJoins db (some rn) cs (some ce)).foldl
                (stepJoin (fun r p rd st jt => visit db fuel r p rd st.1 st.2 jt)
                  rn pos rad cs ce) (mergeSegs rn cs ce segs, j1)).2,
              joinCovered (((getJoins db (some rn) cs (some ce)).foldl
                (stepJoin (fun r p rd st jt => visit db fuel r p rd st.1 st.2 jt)
                  rn pos rad cs ce) (mergeSegs rn cs ce segs, j1)).1) j := by
          intro j1 hj1
          have hQ := foldl_preserve (fun st : List Seg × List Join =>
              (∀ j ∈ st.2, joinCovered st.1 j) ∧
              (∀ m x, covered (mergeSegs rn cs ce segs) m x → covered st.1 m x))
            (stepJoin (fun r p rd st jt => visit db fuel r p rd st.1 st.2 jt) rn pos rad cs ce)
            (getJoins db (some rn) cs (some ce))
            (mergeSegs rn cs ce segs, j1)
            (fun st j hjm hQst =>
              stepJoin_joins_covered db hdb fuel ih rn pos rad ref href cs ce hcs hce
                (mergeSegs rn cs ce segs) hbase st j
                (getJoins_mem_db db (some rn) cs (some ce) j hjm) hQst.1 hQst.2)
            ⟨hj1, fun m x h => h⟩
          exact hQ.1
        cases jt with
        | none =>
          dsimp only
          by_cases hany : segs.any (segContains rn cs ce) = true
          · simp only [if_pos hany]
            exact hJ
          · simp only [if_neg hany]
            refine hfold joins ?_
            intro j hj
            exact ⟨hmono _ _ (hJ j hj).1, hmono _ _ (hJ j hj).2⟩
        | some j0 =>
          dsimp only
          obtain ⟨hj0db, hj0pre⟩ := hjt j0 rfl
          have hpre := hj0pre (by omega) ref href
          have hposext : ref.start ≤ pos ∧ pos < ref.start + ref.length := by
            rcases hpre with ⟨he1, he2, _⟩ | ⟨he1, he2, _⟩
            · obtain ⟨lr, hlr, h1, h2⟩ := (hdb j0 hj0db).1
              rw [he1, href] at hlr
              cases hlr
              omega
            · obtain ⟨rr, hrr, h1, h2⟩ := (hdb j0 hj0db).2
              rw [he1, href] at hrr
              cases hrr
              omega
          have hwin : cs ≤ pos ∧ pos < ce := by
            constructor <;> omega
          by_cases hany : segs.any (segContains rn cs ce) = true
          · simp only [if_pos hany]
            have hcovpos : covered segs rn pos := by
              obtain ⟨s, hs, hcont⟩ := List.any_eq_true.mp hany
              obtain ⟨hsn, hs1, hs2⟩ := segContains_iff.mp hcont
              exact ⟨s, hs, hsn, by omega, by omega⟩
            have hj0cov : joinCovered segs j0 := by
              rcases hpre with ⟨he1, he2, hcv⟩ | ⟨he1, he2, hcv⟩
              · exact ⟨by rw [he1, he2]; exact hcovpos, hcv⟩
              · exact ⟨hcv, by rw [he1, he2]; exact hcovpos⟩
            intro j hj
            by_cases hcont : joins.contains j0 = true
            · rw [if_pos hcont] at hj
              exact hJ j hj
            · rw [if_neg hcont] at hj
              rcases List.mem_append.mp hj with h | h
              · exact hJ j h
              · rw [List.mem_singleton] at h
                subst h
                exact hj0cov
          · simp only [if_neg hany]
            have hcovpos1 : covered (mergeSegs rn cs ce segs) rn pos :=
              hbase pos hwin.1 hwin.2
            have hj0cov : joinCovered (mergeSegs rn cs ce segs) j0 := by
              rcases hpre with ⟨he1, he2, hcv⟩ | ⟨he1, he2, hcv⟩
              · exact ⟨by rw [he1, he2]; exact hcovpos1, hmono _ _ hcv⟩
              · exact ⟨hmono _ _ hcv, by rw [he1, he2]; exact hcovpos1⟩
            by_cases hcont : joins.contains j0 = true
            · rw [if_pos hcont]
              refine hfold joins ?_
              intro j hj
              exact ⟨hmono _ _ (hJ j hj).1, hmono _ _ (hJ j hj).2⟩
            · rw [if_neg hcont]
              refine hfold (joins ++ [j0]) ?_
              intro j hj
              rcases List.mem_append.mp hj with h | h
              · exact ⟨hmono _ _ (hJ j h).1, hmono _ _ (hJ j h).2⟩
              · rw [List.mem_singleton] at h
                subst h
                exact hj0cov

/-- C10: over a topology whose join endpoints all lie within their reference's
extent, every join of a `getSubgraph` result has both endpoint positions
covered by some returned segment on the matching reference: a join is recorded
only by a visit that survives the radius and catalog gates, and that visit's
candidate window covers its entry endpoint while the exploring visit's window
covered the departure endpoint. -/
theorem getSubgraph_joins_endpoints_covered (db : DB) (hdb : endpointsOk db)
    (n : String) (p r : Int) :
    ∀ j ∈ (getSubgraph db n p r).2, joinCovered (getSubgraph db n p r).1 j :=
  visit_joins_covered db hdb r.toNat n p r [] [] none (by simp) (by simp)

theorem getSubgraph_joins_endpoints_covered_witness :
    joinAA ∈ (getSubgraph dbSmall "A" 100 30).2 ∧
    joinCovered (getSubgraph dbSmall "A" 100 30).1 joinAA := by
  have hdb : endpointsOk dbSmall := by
    intro j hj
    have hja : j = joinAA := by
      simpa [dbSmall] using hj
    subst hja
    exact ⟨⟨⟨"A", 0, 200⟩, by decide, by decide, by decide⟩,
           ⟨⟨"A", 0, 200⟩, by decide, by decide, by decide⟩⟩
  exact ⟨by decide, getSubgraph_joins_endpoints_covered dbSmall hdb "A" 100 30 joinAA (by decide)⟩

